import Mathlib

/-!
Verification of the task orchestrator in `slave.py`.

The embedding mirrors the Python source:

* a set of task names becomes a `List String` recording the set's
  iteration order (Python sets have no duplicates, so theorems carry a
  `Nodup` hypothesis where set semantics matter);
* the dependency dictionary becomes a `List (String × List String)`
  recording dict insertion order (dict keys are unique, hence the
  `Nodup` hypothesis on the key list);
* the mutable `in_degree` dictionary becomes an association list
  `List (String × Int)` (Python integers may go negative under the
  decrements of the Kahn loop);
* an uncaught Python exception (the `KeyError` possible at
  `in_degree[task] += 1`, line 131) is modelled by `Option`: `none`
  means the function raised instead of returning.
-/

namespace Slave

/-- Dependency declarations: the `dependencies` dict of `topological_sort`,
as a list of (task, prerequisite list) entries in dict insertion order. -/
abbrev Deps := List (String × List String)

/-- Dictionary read `in_degree[k]`.  Every read in the program is either
guarded by a key check or applied to a key that is present, so the
default value for a missing key is never observable. -/
def getDeg (m : List (String × Int)) (k : String) : Int :=
  match m.find? (fun p => p.1 = k) with
  | some p => p.2
  | none => 0

/-- Key-membership test on the `in_degree` dictionary, marking the sites
where Python would raise `KeyError`. -/
def hasKey (m : List (String × Int)) (k : String) : Bool :=
  m.any (fun p => p.1 = k)

/-- The write `in_degree[task] += 1` of graph construction (line 131). -/
def incr (m : List (String × Int)) (k : String) : List (String × Int) :=
  m.map (fun p => if p.1 = k then (p.1, p.2 + 1) else p)

/-- The write `in_degree[neighbor] -= 1` of the Kahn loop (line 141). -/
def decDeg (m : List (String × Int)) (k : String) : List (String × Int) :=
  m.map (fun p => if p.1 = k then (p.1, p.2 - 1) else p)

/-- All prerequisite occurrences declared for task `t`, in declaration
order and with multiplicity: exactly the occurrences that
`in_degree[task] += 1` counts. -/
def depsOf (deps : Deps) (t : String) : List String :=
  deps.bind (fun p => if p.1 = t then p.2 else [])

/-- The adjacency lists built at lines 126-131: `graph d` is the list of
tasks appended to `graph[d]`, in declaration order, once per occurrence
of `d` in their prerequisite lists (`graph` is a `defaultdict(list)`,
so a missing key reads as `[]`). -/
def graph (deps : Deps) (d : String) : List String :=
  deps.bind (fun p => (p.2.filter (fun x => x = d)).map (fun _ => p.1))

/-- The inner loop `for dep in deps: graph[dep].append(task);
in_degree[task] += 1` restricted to its effect on `in_degree`: one
checked increment of key `t` per prerequisite occurrence.  `none` is the
`KeyError` raised when `t` is not a key of `in_degree`. -/
def addEntry (m : List (String × Int)) (t : String) : List String → Option (List (String × Int))
  | [] => some m
  | _ :: ds => if hasKey m t then addEntry (incr m t) t ds else none

/-- The outer loop `for task, deps in dependencies.items()` of graph
construction, threading the `in_degree` dictionary. -/
def buildAux : Deps → List (String × Int) → Option (List (String × Int))
  | [], m => some m
  | p :: rest, m =>
    match addEntry m p.1 p.2 with
    | none => none
    | some m' => buildAux rest m'

/-- Graph construction's `in_degree` result (lines 126-131): start from
`{task: 0 for task in tasks}` and run the nested increment loops;
`none` models the uncaught `KeyError` on a dependency key that is not a
declared task. -/
def buildInDegree (tasks : List String) (deps : Deps) : Option (List (String × Int)) :=
  buildAux deps (tasks.map (fun t => (t, (0 : Int))))

/-- Number of entries of the `in_degree` dictionary that are still
positive; together with the queue length this measures the remaining
work of the Kahn loop. -/
def posCount (m : List (String × Int)) : Nat :=
  m.countP (fun p => decide (0 < p.2))

/-- The body `for neighbor in graph[current]: in_degree[neighbor] -= 1;
if in_degree[neighbor] == 0: queue.append(neighbor)` (lines 140-143).
Returns the updated dictionary and the neighbors appended to the queue,
in append order; `none` models a `KeyError` on a neighbor missing from
`in_degree` (unreachable after a successful construction). -/
def processNeighbors : List String → List (String × Int) → Option (List (String × Int) × List String)
  | [], m => some (m, [])
  | n :: ns, m =>
    if hasKey m n then
      match processNeighbors ns (decDeg m n) with
      | none => none
      | some s => some (s.1, (if getDeg (decDeg m n) n = 0 then [n] else []) ++ s.2)
    else none

theorem posCount_decDeg_le (m : List (String × Int)) (n : String) :
    posCount (decDeg m n) ≤ posCount m := by
  induction m with
  | nil => simp [decDeg, posCount]
  | cons p m ih =>
    by_cases hp : p.1 = n
    · simp only [decDeg, posCount, List.map_cons, List.countP_cons, if_pos hp] at *
      have hhead : (if decide (0 < p.2 - 1) = true then 1 else 0) ≤
          (if decide (0 < p.2) = true then 1 else 0) := by
        by_cases h2 : (0 : Int) < p.2 - 1
        · have h3 : (0 : Int) < p.2 := by omega
          simp [h2, h3]
        · simp [h2]
      omega
    · simp only [decDeg, posCount, List.map_cons, List.countP_cons, if_neg hp] at *
      omega

theorem posCount_decDeg_lt (m : List (String × Int)) (n : String)
    (hk : hasKey m n = true) (h0 : getDeg (decDeg m n) n = 0) :
    posCount (decDeg m n) < posCount m := by
  induction m with
  | nil => simp [hasKey] at hk
  | cons p m ih =>
    by_cases hp : p.1 = n
    · have hfind : getDeg (decDeg (p :: m) n) n = p.2 - 1 := by
        simp [decDeg, getDeg, List.find?, hp]
      have hp2 : p.2 = 1 := by rw [hfind] at h0; omega
      have hle := posCount_decDeg_le m n
      have e1 : posCount (decDeg (p :: m) n) = posCount (decDeg m n) := by
        simp [decDeg, posCount, List.countP_cons, hp, hp2]
      have e2 : posCount (p :: m) = posCount m + 1 := by
        simp [posCount, List.countP_cons, hp2]
      omega
    · have hk' : hasKey m n = true := by
        simpa [hasKey, hp] using hk
      have h0' : getDeg (decDeg m n) n = 0 := by
        simpa [decDeg, getDeg, List.find?, hp] using h0
      have hlt := ih hk' h0'
      have e1 : posCount (decDeg (p :: m) n) =
          posCount (decDeg m n) + (if decide (0 < p.2) = true then 1 else 0) := by
        simp [decDeg, posCount, List.countP_cons, hp]
      have e2 : posCount (p :: m) = posCount m + (if decide (0 < p.2) = true then 1 else 0) := by
        simp [posCount, List.countP_cons]
      omega

theorem processNeighbors_measure (ns : List String) :
    ∀ (m m' : List (String × Int)) (adm : List String),
      processNeighbors ns m = some (m', adm) →
      adm.length + posCount m' ≤ posCount m := by
  induction ns with
  | nil =>
    intro m m' adm h
    simp only [processNeighbors, Option.some.injEq, Prod.mk.injEq] at h
    simp [← h.1, ← h.2]
  | cons n ns ih =>
    intro m m' adm h
    simp only [processNeighbors] at h
    by_cases hk : hasKey m n = true
    · rw [if_pos hk] at h
      cases hrec : processNeighbors ns (decDeg m n) with
      | none => rw [hrec] at h; simp at h
      | some s =>
        rw [hrec] at h
        simp only [Option.some.injEq, Prod.mk.injEq] at h
        obtain ⟨hm', hadm⟩ := h
        have hih := ih (decDeg m n) s.1 s.2 (by rw [hrec])
        by_cases h0 : getDeg (decDeg m n) n = 0
        · have := posCount_decDeg_lt m n hk h0
          subst hm'
          rw [← hadm]
          simp only [if_pos h0, List.length_append, List.length_cons, List.length_nil]
          omega
        · have := posCount_decDeg_le m n
          subst hm'
          rw [← hadm]
          simp only [if_neg h0, List.nil_append]
          omega
    · rw [if_neg hk] at h
      simp at h

/-- The `while queue:` loop of `topological_sort` (lines 137-143):
pop from the left, append to the order, decrement the in-degree of each
neighbor and admit those reaching zero.  `none` models an uncaught
exception inside the loop. -/
def kahnLoop (g : String → List String) (q : List String) (m : List (String × Int))
    (order : List String) : Option (List String) :=
  match q with
  | [] => some order
  | current :: rest =>
    match h : processNeighbors (g current) m with
    | none => none
    | some s =>
      have hdec : s.2.length + posCount s.1 ≤ posCount m :=
        processNeighbors_measure _ _ _ _ h
      kahnLoop g (rest ++ s.2) s.1 (order ++ [current])
termination_by q.length + posCount m
decreasing_by simp only [List.length_append, List.length_cons]; omega

/-- The whole of `topological_sort` (lines 112-149): build the graph and
in-degree table, seed the queue with the zero-in-degree tasks in task
iteration order, run the Kahn loop, and return `[]` when the produced
order does not cover every declared task.  `none` models an uncaught
exception (`KeyError` during construction). -/
def topological_sort (tasks : List String) (deps : Deps) : Option (List String) :=
  match buildInDegree tasks deps with
  | none => none
  | some m =>
    match kahnLoop (graph deps) (tasks.filter (fun t => getDeg m t = 0)) m [] with
    | none => none
    | some order => if order.length ≠ tasks.length then some [] else some order

/-- Number of prerequisite occurrences of `t` not yet appended to the
output order: the quantity the Kahn loop maintains in `in_degree[t]`. -/
def pending (deps : Deps) (order : List String) (t : String) : Nat :=
  (depsOf deps t).countP (fun d => decide (d ∉ order))

/-- The tasks admitted to the queue while the neighbors of `current` are
processed, in append order: an entry's task is admitted exactly when
`current` occurs among its prerequisites and the entry's in-degree
reaches zero, which can only happen at the last of those occurrences. -/
def admittedList (deps : Deps) (current : String) (v : String → Int) : List String :=
  (deps.filter (fun p => decide (current ∈ p.2) &&
    decide (v p.1 = (p.2.count current : Int)))).map Prod.fst

/-- Direct prerequisite relation declared by the dependency mapping:
`DependsOn deps d t` holds when `d` is declared as a prerequisite of
`t`. -/
def DependsOn (deps : Deps) (d t : String) : Prop :=
  d ∈ depsOf deps t

/-- The dependency mapping with every prerequisite list collapsed to
single occurrences, i.e. every duplicate edge listed exactly once. -/
def dedupDeps (deps : Deps) : Deps :=
  deps.map (fun p => (p.1, p.2.dedup))

/-- Invariant tying a state of the Kahn loop to the list `order` of
tasks already popped: the in-degree table counts exactly the unpopped
prerequisite occurrences, the queue holds exactly the unpopped
zero-degree tasks, and the popped order respects every declared edge. -/
structure Good (tasks : List String) (deps : Deps) (q : List String)
    (m : List (String × Int)) (order : List String) : Prop where
  mEq : m = tasks.map (fun t => (t, (pending deps order t : Int)))
  orderNodup : order.Nodup
  qNodup : q.Nodup
  orderSub : ∀ t ∈ order, t ∈ tasks
  qIff : ∀ t, t ∈ q ↔ (t ∈ tasks ∧ t ∉ order ∧ pending deps order t = 0)
  sorted : ∀ t ∈ order, ∀ d ∈ depsOf deps t, d ∈ order ∧ order.indexOf d < order.indexOf t

/-- Outcome of resolving one task's plugin unit, the environment that
`execute_task` (lines 72-109) probes: the task file may be missing, the
module may raise while loading, and a loaded module may or may not
define `run`, which may raise when invoked. -/
structure TaskModule where
  hasRun : Bool
  runRaises : Bool
deriving DecidableEq

/-- Result of locating and loading the plugin unit of one task. -/
inductive LoadResult where
  | fileMissing : LoadResult
  | loadError : LoadResult
  | loaded : TaskModule → LoadResult
deriving DecidableEq

/-- The Task Runner `execute_task` (lines 72-109): missing file, load
exception, missing `run` attribute and an exception inside `run()` each
return `False`; only a clean invocation returns `True`.  The function is
total: every fault is returned as a value, never re-raised. -/
def execute_task (fs : String → LoadResult) (task_name : String) : Bool :=
  match fs task_name with
  | .fileMissing => false
  | .loadError => false
  | .loaded tm =>
    if tm.hasRun = false then false
    else if tm.runRaises = true then false
    else true

/-- The Sequence Executor `execute_task_sequence` (lines 152-167) as the
boolean it returns: run the tasks in order, stop at the first failure. -/
def execute_task_sequence (outcome : String → Bool) : List String → Bool
  | [] => true
  | task :: rest => if outcome task then execute_task_sequence outcome rest else false

/-- Terminal run result reported by the Sequence Executor: `done` for a
fully successful run, `error t` for a run halted at failing task `t`
(line 165 logs exactly the failing task). -/
inductive RunResult where
  | done : RunResult
  | error : String → RunResult
deriving DecidableEq

/-- Instrumented form of `execute_task_sequence`: additionally records
the list of tasks actually invoked, in invocation order, and which task
the halt was attributed to.  Its boolean projection coincides with
`execute_task_sequence`. -/
def executeTrace (outcome : String → Bool) : List String → List String × RunResult
  | [] => ([], RunResult.done)
  | task :: rest =>
    if outcome task then
      (task :: (executeTrace outcome rest).1, (executeTrace outcome rest).2)
    else ([task], RunResult.error task)

/-- The completion signal sent by `main` (lines 243-247): the literal
`DONE` on success and `ERROR` otherwise. -/
def signalOf (success : Bool) : String := if success then "DONE" else "ERROR"

/-- The `TASK_TYPE == "all"` branch of `main` (lines 209-228 and
243-247): compute the order, treat a falsy (empty) order as a
structural error and send `ERROR` without running anything, otherwise
run the sequence; `none` is an uncaught exception.  The second
component records the tasks actually invoked. -/
def mainAllMode (fs : String → LoadResult) (tasks : List String) (deps : Deps) :
    Option (String × List String) :=
  match topological_sort tasks deps with
  | none => none
  | some task_order =>
    if task_order.isEmpty then some ("ERROR", [])
    else
      some (signalOf (execute_task_sequence (execute_task fs) task_order),
        (executeTrace (execute_task fs) task_order).1)

/-- The single-task branch of `main` (lines 229-247): one Task Runner
invocation whose boolean becomes the completion signal. -/
def mainSingleMode (fs : String → LoadResult) (t : String) : String :=
  signalOf (execute_task fs t)

theorem kahnLoop_nil (g : String → List String) (m : List (String × Int))
    (order : List String) : kahnLoop g [] m order = some order := by
  rw [kahnLoop]

theorem kahnLoop_cons_none (g : String → List String) (current : String) (rest : List String)
    (m : List (String × Int)) (order : List String)
    (h : processNeighbors (g current) m = none) :
    kahnLoop g (current :: rest) m order = none := by
  rw [kahnLoop]
  split
  · rfl
  · next s heq => rw [h] at heq; exact Option.noConfusion heq

theorem kahnLoop_cons_some (g : String → List String) (current : String) (rest : List String)
    (m : List (String × Int)) (order : List String) (s : List (String × Int) × List String)
    (h : processNeighbors (g current) m = some s) :
    kahnLoop g (current :: rest) m order = kahnLoop g (rest ++ s.2) s.1 (order ++ [current]) := by
  rw [kahnLoop]
  split
  · next heq => rw [h] at heq; exact Option.noConfusion heq
  · next s' heq =>
    rw [h] at heq
    cases heq
    rfl

theorem executeTrace_agrees (outcome : String → Bool) (order : List String) :
    execute_task_sequence outcome order = ((executeTrace outcome order).2 = RunResult.done) := by
  induction order with
  | nil => simp [execute_task_sequence, executeTrace]
  | cons t rest ih =>
    by_cases h : outcome t
    · simpa [execute_task_sequence, executeTrace, h] using ih
    · simp [execute_task_sequence, executeTrace, h]

theorem find?_map_eq (l : List String) (v : String → Int) (t : String) (h : t ∈ l) :
    (l.map (fun x => (x, v x))).find? (fun p => p.1 = t) = some (t, v t) := by
  induction l with
  | nil => cases h
  | cons a l ih =>
    simp only [List.map_cons]
    by_cases ha : a = t
    · subst ha
      rw [List.find?_cons_of_pos]
      simp
    · rw [List.find?_cons_of_neg _ (by simp [ha])]
      exact ih ((List.mem_cons.mp h).resolve_left (fun h1 => ha h1.symm))

theorem getDeg_map (l : List String) (v : String → Int) (t : String) (h : t ∈ l) :
    getDeg (l.map (fun x => (x, v x))) t = v t := by
  unfold getDeg
  rw [find?_map_eq l v t h]

theorem hasKey_map_iff (l : List String) (v : String → Int) (t : String) :
    hasKey (l.map (fun x => (x, v x))) t = true ↔ t ∈ l := by
  simp [hasKey, List.any_eq_true]

theorem decDeg_map (l : List String) (v : String → Int) (k : String) :
    decDeg (l.map (fun x => (x, v x))) k =
      l.map (fun x => (x, if x = k then v x - 1 else v x)) := by
  simp only [decDeg, List.map_map]
  congr 1
  funext x
  by_cases hx : x = k <;> simp [hx, Function.comp]

theorem incr_map (l : List String) (v : String → Int) (k : String) :
    incr (l.map (fun x => (x, v x))) k =
      l.map (fun x => (x, if x = k then v x + 1 else v x)) := by
  simp only [incr, List.map_map]
  congr 1
  funext x
  by_cases hx : x = k <;> simp [hx, Function.comp]

theorem count_le_countP (l : List String) (a : String) (p : String → Bool) (h : p a = true) :
    l.count a ≤ l.countP p := by
  induction l with
  | nil => simp
  | cons b l ih =>
    rw [List.count_cons, List.countP_cons]
    by_cases hb : b = a
    · subst hb
      simp only [h, beq_self_eq_true, if_true]
      omega
    · have hba : (b == a) = false := beq_eq_false_iff_ne.mpr hb
      rw [hba]
      by_cases hpb : p b = true <;> simp [hpb] <;> omega

theorem countP_unpopped_append (l order : List String) (current : String) (h : current ∉ order) :
    l.countP (fun d => decide (d ∉ order ++ [current])) + l.count current =
      l.countP (fun d => decide (d ∉ order)) := by
  induction l with
  | nil => simp
  | cons d l ih =>
    rw [List.countP_cons, List.countP_cons, List.count_cons]
    by_cases hd : d = current
    · subst hd
      have e1 : decide (d ∉ order ++ [d]) = false := by simp
      have e2 : decide (d ∉ order) = true := by simp [h]
      rw [e1, e2, beq_self_eq_true]
      simp only [Bool.false_eq_true, if_false, if_true]
      omega
    · have e1 : decide (d ∉ order ++ [current]) = decide (d ∉ order) := by
        apply decide_eq_decide.mpr
        simp [hd]
      have e2 : (d == current) = false := beq_eq_false_iff_ne.mpr hd
      rw [e1, e2]
      simp only [Bool.false_eq_true, if_false]
      omega

theorem countP_eq_count_iff (l order : List String) (current : String) (hcO : current ∉ order) :
    l.countP (fun d => decide (d ∉ order)) = l.count current ↔
      ∀ d ∈ l, d ∉ order → d = current := by
  induction l with
  | nil => simp
  | cons d l ih =>
    rw [List.countP_cons, List.count_cons]
    have hle := count_le_countP l current (fun x => decide (x ∉ order)) (by simp [hcO])
    by_cases hdO : d ∈ order
    · have e1 : decide (d ∉ order) = false := by simp [hdO]
      have e2 : (d == current) = false := by
        apply beq_eq_false_iff_ne.mpr
        intro h1
        exact hcO (h1 ▸ hdO)
      rw [e1, e2]
      simp only [Bool.false_eq_true, if_false, Nat.add_zero]
      rw [ih]
      constructor
      · intro hall x hx hxO
        rcases List.mem_cons.mp hx with h1 | h1
        · exact absurd hdO (h1 ▸ hxO)
        · exact hall x h1 hxO
      · intro hall x hx hxO
        exact hall x (List.mem_cons_of_mem d hx) hxO
    · by_cases hdc : d = current
      · subst hdc
        have e1 : decide (d ∉ order) = true := by simp [hdO]
        rw [e1, beq_self_eq_true]
        simp only [if_true]
        constructor
        · intro heq x hx hxO
          rcases List.mem_cons.mp hx with h1 | h1
          · exact h1
          · exact (ih.mp (by omega)) x h1 hxO
        · intro hall
          have := ih.mpr (fun x hx hxO => hall x (List.mem_cons_of_mem d hx) hxO)
          omega
      · have e1 : decide (d ∉ order) = true := by simp [hdO]
        have e2 : (d == current) = false := beq_eq_false_iff_ne.mpr hdc
        rw [e1, e2]
        simp only [if_true, Bool.false_eq_true, if_false, Nat.add_zero]
        constructor
        · intro heq
          omega
        · intro hall
          exact absurd (hall d (List.mem_cons_self d l) hdO) hdc

theorem pending_nil (deps : Deps) (t : String) :
    pending deps [] t = (depsOf deps t).length := by
  unfold pending
  simp

theorem depsOf_cons (p : String × List String) (rest : Deps) (t : String) :
    depsOf (p :: rest) t = (if p.1 = t then p.2 else []) ++ depsOf rest t := by
  simp [depsOf]

theorem graph_cons (p : String × List String) (rest : Deps) (d : String) :
    graph (p :: rest) d =
      (p.2.filter (fun x => x = d)).map (fun _ => p.1) ++ graph rest d := by
  simp [graph]

theorem mem_depsOf (deps : Deps) (t d : String) :
    d ∈ depsOf deps t ↔ ∃ p ∈ deps, p.1 = t ∧ d ∈ p.2 := by
  unfold depsOf
  rw [List.mem_bind]
  constructor
  · rintro ⟨p, hp, hd⟩
    by_cases h1 : p.1 = t
    · exact ⟨p, hp, h1, by simpa [h1] using hd⟩
    · simp [h1] at hd
  · rintro ⟨p, hp, h1, hd⟩
    exact ⟨p, hp, by simp [h1, hd]⟩

theorem depsOf_eq_nil_of_not_key (deps : Deps) (t : String)
    (h : ∀ p ∈ deps, p.1 ≠ t) : depsOf deps t = [] := by
  induction deps with
  | nil => rfl
  | cons p rest ih =>
    rw [depsOf_cons, if_neg (h p (List.mem_cons_self p rest)), List.nil_append]
    exact ih (fun q hq => h q (List.mem_cons_of_mem p hq))

theorem depsOf_eq_of_nodup (deps : Deps) (p : String × List String)
    (hN : (deps.map Prod.fst).Nodup) (hp : p ∈ deps) : depsOf deps p.1 = p.2 := by
  induction deps with
  | nil => cases hp
  | cons q rest ih =>
    have hN' : q.1 ∉ rest.map Prod.fst ∧ (rest.map Prod.fst).Nodup := by
      rw [List.map_cons] at hN
      exact List.nodup_cons.mp hN
    rcases List.mem_cons.mp hp with h1 | h1
    · subst h1
      rw [depsOf_cons, if_pos rfl]
      rw [depsOf_eq_nil_of_not_key rest p.1 ?_, List.append_nil]
      intro r hr he
      exact hN'.1 (he ▸ List.mem_map_of_mem Prod.fst hr)
    · have hq1 : q.1 ≠ p.1 := by
        intro he
        exact hN'.1 (he ▸ List.mem_map_of_mem Prod.fst h1)
      rw [depsOf_cons, if_neg hq1, List.nil_append]
      exact ih hN'.2 h1

theorem filter_map_const_replicate (l : List String) (current t : String) :
    (l.filter (fun x => x = current)).map (fun _ => t) =
      List.replicate (l.count current) t := by
  induction l with
  | nil => rfl
  | cons a l ih =>
    rw [List.filter_cons, List.count_cons]
    by_cases ha : a = current
    · subst ha
      simp only [decide_True, beq_self_eq_true, if_true, List.map_cons, ih,
        List.replicate_succ]
    · have e1 : decide (a = current) = false := by simp [ha]
      have e2 : (a == current) = false := beq_eq_false_iff_ne.mpr ha
      rw [e1, e2]
      simp only [Bool.false_eq_true, if_false, Nat.add_zero, ih]

theorem dedup_eq_nil_iff (l : List String) : l.dedup = [] ↔ l = [] := by
  constructor
  · intro h
    rw [List.eq_nil_iff_forall_not_mem]
    intro a ha
    have : a ∈ l.dedup := List.mem_dedup.mpr ha
    rw [h] at this
    cases this
  · intro h; subst h; rfl

theorem depsOf_dedupDeps_nil_iff (deps : Deps) (t : String) :
    depsOf (dedupDeps deps) t = [] ↔ depsOf deps t = [] := by
  induction deps with
  | nil => exact Iff.rfl
  | cons p rest ih =>
    have hstep : dedupDeps (p :: rest) = (p.1, p.2.dedup) :: dedupDeps rest := rfl
    rw [hstep, depsOf_cons, depsOf_cons, List.append_eq_nil, List.append_eq_nil]
    refine and_congr ?_ ih
    by_cases hp : p.1 = t
    · simp only [hp, if_true]
      exact dedup_eq_nil_iff p.2
    · simp [hp]

theorem processNeighbors_append_some (ns₂ : List String) (m₂ : List (String × Int))
    (a₂ : List String) (ns₁ : List String) :
    ∀ (m m₁ : List (String × Int)) (a₁ : List String),
      processNeighbors ns₁ m = some (m₁, a₁) →
      processNeighbors ns₂ m₁ = some (m₂, a₂) →
      processNeighbors (ns₁ ++ ns₂) m = some (m₂, a₁ ++ a₂) := by
  induction ns₁ with
  | nil =>
    intro m m₁ a₁ h₁ h₂
    simp only [processNeighbors, Option.some.injEq, Prod.mk.injEq] at h₁
    obtain ⟨hm, ha⟩ := h₁
    subst hm; subst ha
    simpa using h₂
  | cons n ns ih =>
    intro m m₁ a₁ h₁ h₂
    simp only [processNeighbors] at h₁
    by_cases hk : hasKey m n = true
    · rw [if_pos hk] at h₁
      cases hrec : processNeighbors ns (decDeg m n) with
      | none => rw [hrec] at h₁; exact Option.noConfusion h₁
      | some s =>
        rw [hrec] at h₁
        simp only [Option.some.injEq, Prod.mk.injEq] at h₁
        obtain ⟨hm, ha⟩ := h₁
        have hcomp := ih (decDeg m n) s.1 s.2 hrec (by rw [hm]; exact h₂)
        rw [List.cons_append]
        simp only [processNeighbors, hk, if_true, hcomp]
        rw [← ha, List.append_assoc]
    · rw [if_neg hk] at h₁
      exact Option.noConfusion h₁

theorem processNeighbors_replicate (tasks : List String) (t : String) (c : Nat) :
    ∀ (v : String → Int), t ∈ tasks → (c : Int) ≤ v t →
      processNeighbors (List.replicate c t) (tasks.map (fun x => (x, v x))) =
        some (tasks.map (fun x => (x, if x = t then v x - c else v x)),
          if 1 ≤ c ∧ v t = c then [t] else []) := by
  induction c with
  | zero =>
    intro v _ _
    simp only [List.replicate, processNeighbors]
    rw [if_neg (fun h => absurd h.1 (by norm_num))]
    have hmap : (fun (x : String) => (x, v x)) =
        (fun x => (x, if x = t then v x - ((0 : Nat) : Int) else v x)) := by
      funext x
      by_cases hx : x = t <;> simp [hx]
    rw [hmap]
  | succ c ihc =>
    intro v ht hv
    have hk : hasKey (tasks.map (fun x => (x, v x))) t = true :=
      (hasKey_map_iff tasks v t).mpr ht
    have hrec := ihc (fun x => if x = t then v x - 1 else v x) ht (by simp; omega)
    simp only [eq_self_iff_true, if_true] at hrec
    have hgd : getDeg (tasks.map (fun x => (x, if x = t then v x - 1 else v x))) t =
        v t - 1 := by
      rw [getDeg_map tasks _ t ht]
      simp
    rw [List.replicate_succ]
    simp only [processNeighbors, hk, if_true, decDeg_map, hrec, hgd]
    refine congrArg some ?_
    have hfst : (tasks.map fun x =>
          (x, if x = t then (if x = t then v x - 1 else v x) - (c : Int)
            else if x = t then v x - 1 else v x)) =
        (tasks.map fun x => (x, if x = t then v x - ((c + 1 : Nat) : Int) else v x)) := by
      apply List.map_congr_left
      intro x _
      by_cases hx : x = t
      · simp only [hx, if_true]
        push_cast
        ring
      · simp [hx]
    rw [hfst]
    refine congrArg (Prod.mk _) ?_
    by_cases h1 : v t - 1 = 0
    · have hc0 : c = 0 := by omega
      subst hc0
      rw [if_pos h1, if_neg (by rintro ⟨hc, _⟩; exact absurd hc (by norm_num)),
        if_pos ⟨by norm_num, by push_cast; omega⟩]
      rfl
    · rw [if_neg h1]
      by_cases h2 : v t = (c : Int) + 1
      · have hc1 : 1 ≤ c := by omega
        rw [if_pos ⟨hc1, by omega⟩, if_pos ⟨by omega, by push_cast; omega⟩]
        rfl
      · rw [if_neg (by rintro ⟨hc, he⟩; exact h2 (by omega)),
          if_neg (by rintro ⟨hc, he⟩; push_cast at he; exact h2 (by omega))]
        rfl

theorem processNeighbors_graph (current : String) (tasks : List String) (deps : Deps) :
    ∀ (v : String → Int),
      (∀ p ∈ deps, p.2 ≠ [] → p.1 ∈ tasks) →
      (deps.map Prod.fst).Nodup →
      (∀ p ∈ deps, (p.2.count current : Int) ≤ v p.1) →
      processNeighbors (graph deps current) (tasks.map (fun x => (x, v x))) =
        some (tasks.map (fun x => (x, v x - ((depsOf deps x).count current : Int))),
          admittedList deps current v) := by
  induction deps with
  | nil =>
    intro v _ _ _
    show some (tasks.map (fun x => (x, v x)), ([] : List String)) = _
    have hmap : (fun (x : String) => (x, v x)) =
        (fun x => (x, v x - ((depsOf ([] : Deps) x).count current : Int))) := by
      funext x
      simp [depsOf]
    rw [hmap]
    rfl
  | cons p rest ih =>
    intro v hkeys hN hv
    have hN' : (rest.map Prod.fst).Nodup := by
      rw [List.map_cons] at hN
      exact (List.nodup_cons.mp hN).2
    have hp1notin : p.1 ∉ rest.map Prod.fst := by
      rw [List.map_cons] at hN
      exact (List.nodup_cons.mp hN).1
    have hkeys' : ∀ q ∈ rest, q.2 ≠ [] → q.1 ∈ tasks :=
      fun q hq => hkeys q (List.mem_cons_of_mem p hq)
    have hgraph : graph (p :: rest) current =
        List.replicate (p.2.count current) p.1 ++ graph rest current := by
      rw [graph_cons, filter_map_const_replicate]
    by_cases hc : p.2.count current = 0
    · have hcur : current ∉ p.2 := by
        intro hmem
        have := List.count_pos_iff.mpr hmem
        omega
      rw [hgraph, hc, show List.replicate 0 p.1 = [] from rfl, List.nil_append]
      rw [ih v hkeys' hN' (fun q hq => hv q (List.mem_cons_of_mem p hq))]
      refine congrArg some ?_
      refine congrArg₂ Prod.mk ?_ ?_
      · apply List.map_congr_left
        intro x _
        refine congrArg (Prod.mk x) ?_
        rw [depsOf_cons, List.count_append]
        by_cases hx : p.1 = x
        · rw [if_pos hx, hc]
          norm_num
        · rw [if_neg hx]
          norm_num
      · show admittedList rest current v = admittedList (p :: rest) current v
        unfold admittedList
        rw [List.filter_cons, if_neg (by simp [hcur])]
    · have hp2ne : p.2 ≠ [] := by
        intro he
        rw [he] at hc
        exact hc rfl
      have hp1 : p.1 ∈ tasks := hkeys p (List.mem_cons_self p rest) hp2ne
      have hvp := hv p (List.mem_cons_self p rest)
      have hblock := processNeighbors_replicate tasks p.1 (p.2.count current) v hp1 hvp
      have hv₁ : ∀ q ∈ rest, (q.2.count current : Int) ≤
          (fun x => if x = p.1 then v x - (p.2.count current : Int) else v x) q.1 := by
        intro q hq
        have hq1 : q.1 ≠ p.1 := fun he => hp1notin (he ▸ List.mem_map_of_mem Prod.fst hq)
        simp only [if_neg hq1]
        exact hv q (List.mem_cons_of_mem p hq)
      have hrest := ih (fun x => if x = p.1 then v x - (p.2.count current : Int) else v x)
        hkeys' hN' hv₁
      rw [hgraph,
        processNeighbors_append_some (graph rest current) _ _ _ _ _ _ hblock hrest]
      refine congrArg some ?_
      refine congrArg₂ Prod.mk ?_ ?_
      · apply List.map_congr_left
        intro x _
        refine congrArg (Prod.mk x) ?_
        simp only []
        rw [depsOf_cons, List.count_append]
        by_cases hx : x = p.1
        · rw [if_pos hx, if_pos hx.symm]
          push_cast
          ring
        · rw [if_neg hx, if_neg (fun h => hx h.symm)]
          simp [List.count_nil]
      · have hadm : admittedList rest current
            (fun x => if x = p.1 then v x - (p.2.count current : Int) else v x) =
            admittedList rest current v := by
          unfold admittedList
          refine congrArg (List.map Prod.fst) ?_
          apply List.filter_congr
          intro q hq
          have hq1 : q.1 ≠ p.1 := fun he => hp1notin (he ▸ List.mem_map_of_mem Prod.fst hq)
          simp only [if_neg hq1]
        rw [hadm]
        show _ = admittedList (p :: rest) current v
        unfold admittedList
        rw [List.filter_cons]
        by_cases hcond : (decide (current ∈ p.2) &&
            decide (v p.1 = (p.2.count current : Int))) = true
        · rw [if_pos hcond, List.map_cons]
          obtain ⟨hc1, hc2⟩ : current ∈ p.2 ∧ v p.1 = (p.2.count current : Int) := by
            simpa using hcond
          have h1 : 1 ≤ p.2.count current := List.count_pos_iff.mpr hc1
          rw [if_pos ⟨h1, hc2⟩]
          rfl
        · rw [if_neg hcond]
          have hneg : ¬ (1 ≤ p.2.count current ∧ v p.1 = (p.2.count current : Int)) := by
            rintro ⟨h1, h2⟩
            exact hcond (by simp [List.count_pos_iff.mp h1, h2])
          rw [if_neg hneg]
          rfl

theorem pending_append (deps : Deps) (order : List String) (current : String)
    (h : current ∉ order) (t : String) :
    pending deps (order ++ [current]) t + (depsOf deps t).count current =
      pending deps order t :=
  countP_unpopped_append (depsOf deps t) order current h

theorem pending_zero_of_sorted (deps : Deps) (order : List String)
    (hsort : ∀ t ∈ order, ∀ d ∈ depsOf deps t,
      d ∈ order ∧ order.indexOf d < order.indexOf t)
    (t : String) (ht : t ∈ order) : pending deps order t = 0 := by
  unfold pending
  rw [List.countP_eq_zero]
  intro d hd
  simp [(hsort t ht d hd).1]

theorem mem_admittedList (deps : Deps) (current : String) (v : String → Int) (t : String) :
    t ∈ admittedList deps current v ↔
      ∃ p ∈ deps, p.1 = t ∧ current ∈ p.2 ∧ v t = (p.2.count current : Int) := by
  unfold admittedList
  simp only [List.mem_map, List.mem_filter, Bool.and_eq_true, decide_eq_true_eq]
  constructor
  · rintro ⟨p, ⟨hp, hcur, hval⟩, rfl⟩
    exact ⟨p, hp, rfl, hcur, hval⟩
  · rintro ⟨p, hp, rfl, hcur, hval⟩
    exact ⟨p, ⟨hp, hcur, hval⟩, rfl⟩

theorem admittedList_nodup (deps : Deps) (current : String) (v : String → Int)
    (hN : (deps.map Prod.fst).Nodup) : (admittedList deps current v).Nodup := by
  unfold admittedList
  exact List.Nodup.sublist ((List.filter_sublist deps).map Prod.fst) hN

theorem good_step (tasks : List String) (deps : Deps)
    (hN : (deps.map Prod.fst).Nodup)
    (hkeys : ∀ p ∈ deps, p.2 ≠ [] → p.1 ∈ tasks)
    (current : String) (rest : List String) (m : List (String × Int)) (order : List String)
    (hg : Good tasks deps (current :: rest) m order) :
    processNeighbors (graph deps current) m =
      some (tasks.map (fun x => (x, (pending deps (order ++ [current]) x : Int))),
        admittedList deps current (fun t => (pending deps order t : Int))) ∧
      Good tasks deps
        (rest ++ admittedList deps current (fun t => (pending deps order t : Int)))
        (tasks.map (fun x => (x, (pending deps (order ++ [current]) x : Int))))
        (order ++ [current]) := by
  obtain ⟨hcT, hcO, hc0⟩ := (hg.qIff current).mp (List.mem_cons_self current rest)
  have hvbound : ∀ p ∈ deps, (p.2.count current : Int) ≤
      ((fun t => (pending deps order t : Int)) p.1) := by
    intro p hp
    simp only []
    have hdeq : depsOf deps p.1 = p.2 := depsOf_eq_of_nodup deps p hN hp
    have hcle := count_le_countP p.2 current (fun d => decide (d ∉ order)) (by simp [hcO])
    unfold pending
    rw [hdeq]
    exact_mod_cast hcle
  have hPN := processNeighbors_graph current tasks deps
    (fun t => (pending deps order t : Int)) hkeys hN hvbound
  have hconv : (tasks.map fun x =>
        (x, ((pending deps order x : Int)) - ((depsOf deps x).count current : Int))) =
      tasks.map (fun x => (x, (pending deps (order ++ [current]) x : Int))) := by
    apply List.map_congr_left
    intro x _
    refine congrArg (Prod.mk x) ?_
    have hrel := pending_append deps order current hcO x
    omega
  rw [hconv] at hPN
  rw [hg.mEq]
  refine ⟨hPN, rfl, ?_, ?_, ?_, ?_, ?_⟩
  · rw [List.nodup_append]
    refine ⟨hg.orderNodup, List.nodup_singleton current, ?_⟩
    intro a ha hb
    rw [List.mem_singleton] at hb
    subst hb
    exact hcO ha
  · rw [List.nodup_append]
    refine ⟨(List.nodup_cons.mp hg.qNodup).2, admittedList_nodup deps current _ hN, ?_⟩
    intro a ha hb
    obtain ⟨haT, haO, ha0⟩ := (hg.qIff a).mp (List.mem_cons_of_mem current ha)
    obtain ⟨p, hp, hpa, hpc, hpv⟩ := (mem_admittedList deps current _ a).mp hb
    have hcp : 0 < p.2.count current := List.count_pos_iff.mpr hpc
    rw [ha0] at hpv
    omega
  · intro t ht
    rcases List.mem_append.mp ht with h1 | h1
    · exact hg.orderSub t h1
    · rw [List.mem_singleton] at h1
      subst h1
      exact hcT
  · intro t
    constructor
    · intro ht
      rcases List.mem_append.mp ht with h1 | h1
      · obtain ⟨htT, htO, ht0⟩ := (hg.qIff t).mp (List.mem_cons_of_mem current h1)
        have htc : t ≠ current := by
          intro he
          subst he
          exact (List.nodup_cons.mp hg.qNodup).1 h1
        refine ⟨htT, ?_, ?_⟩
        · intro hmem
          rcases List.mem_append.mp hmem with h2 | h2
          · exact htO h2
          · rw [List.mem_singleton] at h2
            exact htc h2
        · have hrel := pending_append deps order current hcO t
          omega
      · obtain ⟨p, hp, hpa, hpc, hpv⟩ := (mem_admittedList deps current _ t).mp h1
        have hdeq : depsOf deps t = p.2 := by
          rw [← hpa]
          exact depsOf_eq_of_nodup deps p hN hp
        have htT : t ∈ tasks := by
          rw [← hpa]
          exact hkeys p hp (by intro he; rw [he] at hpc; cases hpc)
        have hpend : pending deps order t = p.2.count current := by exact_mod_cast hpv
        have hcp : 0 < p.2.count current := List.count_pos_iff.mpr hpc
        have htO : t ∉ order := by
          intro hmem
          have := pending_zero_of_sorted deps order hg.sorted t hmem
          omega
        have htc : t ≠ current := by
          intro he
          rw [he] at hpend
          omega
        refine ⟨htT, ?_, ?_⟩
        · intro hmem
          rcases List.mem_append.mp hmem with h2 | h2
          · exact htO h2
          · rw [List.mem_singleton] at h2
            exact htc h2
        · have hrel := pending_append deps order current hcO t
          rw [hdeq] at hrel
          omega
    · rintro ⟨htT, htO', ht0'⟩
      have htO : t ∉ order := fun h => htO' (List.mem_append.mpr (Or.inl h))
      have htc : t ≠ current := by
        intro h
        exact htO' (List.mem_append.mpr (Or.inr (by rw [h]; exact List.mem_singleton.mpr rfl)))
      have hrel := pending_append deps order current hcO t
      by_cases hcd : (depsOf deps t).count current = 0
      · have ht0 : pending deps order t = 0 := by omega
        have hmem := (hg.qIff t).mpr ⟨htT, htO, ht0⟩
        rcases List.mem_cons.mp hmem with h1 | h1
        · exact absurd h1 htc
        · exact List.mem_append.mpr (Or.inl h1)
      · have hcur : current ∈ depsOf deps t := by
          rw [← List.count_pos_iff]
          omega
        obtain ⟨p, hp, hpt, hpc⟩ := (mem_depsOf deps t current).mp hcur
        have hdeq : depsOf deps t = p.2 := by
          rw [← hpt]
          exact depsOf_eq_of_nodup deps p hN hp
        refine List.mem_append.mpr (Or.inr ?_)
        rw [mem_admittedList]
        refine ⟨p, hp, hpt, hpc, ?_⟩
        rw [hdeq] at hrel
        have hpend : pending deps order t = p.2.count current := by omega
        exact_mod_cast hpend
  · intro t ht d hd
    rcases List.mem_append.mp ht with h1 | h1
    · obtain ⟨hdO, hlt⟩ := hg.sorted t h1 d hd
      refine ⟨List.mem_append.mpr (Or.inl hdO), ?_⟩
      rw [List.indexOf_append_of_mem hdO, List.indexOf_append_of_mem h1]
      exact hlt
    · rw [List.mem_singleton] at h1
      subst h1
      have hdO : d ∈ order := by
        have h0 := hc0
        unfold pending at h0
        rw [List.countP_eq_zero] at h0
        have := h0 d hd
        simpa using this
      refine ⟨List.mem_append.mpr (Or.inl hdO), ?_⟩
      rw [List.indexOf_append_of_mem hdO, List.indexOf_append_of_not_mem hcO]
      have hidx : List.indexOf t [t] = 0 := List.indexOf_cons_self t []
      rw [hidx]
      simpa using List.indexOf_lt_length.mpr hdO

theorem kahnLoop_good (tasks : List String) (deps : Deps)
    (hN : (deps.map Prod.fst).Nodup)
    (hkeys : ∀ p ∈ deps, p.2 ≠ [] → p.1 ∈ tasks) :
    ∀ (n : Nat) (q : List String) (m : List (String × Int)) (order : List String),
      q.length + posCount m = n → Good tasks deps q m order →
      ∃ res, kahnLoop (graph deps) q m order = some res ∧
        res.Nodup ∧ (∀ t ∈ res, t ∈ tasks) ∧
        (∀ t ∈ res, ∀ d ∈ depsOf deps t, d ∈ res ∧ res.indexOf d < res.indexOf t) ∧
        (∀ t ∈ tasks, t ∉ res → pending deps res t ≠ 0) := by
  intro n
  induction n using Nat.strong_induction_on with
  | _ n ih =>
    intro q m order hn hg
    cases q with
    | nil =>
      refine ⟨order, kahnLoop_nil _ _ _, hg.orderNodup, hg.orderSub, hg.sorted, ?_⟩
      intro t htT htO h0
      have hmem := (hg.qIff t).mpr ⟨htT, htO, h0⟩
      exact absurd hmem (List.not_mem_nil t)
    | cons current rest =>
      obtain ⟨hPN, hg'⟩ := good_step tasks deps hN hkeys current rest m order hg
      rw [kahnLoop_cons_some _ _ _ _ _ _ hPN]
      have hmeas := processNeighbors_measure (graph deps current) m _ _ hPN
      refine ih ((rest ++ admittedList deps current
          (fun t => (pending deps order t : Int))).length +
          posCount (tasks.map (fun x => (x, (pending deps (order ++ [current]) x : Int)))))
        ?_ _ _ _ rfl hg'
      rw [List.length_append]
      rw [List.length_cons] at hn
      omega

theorem addEntry_map (tasks : List String) (t : String) (ds : List String) :
    ∀ (v : String → Int), t ∈ tasks →
      addEntry (tasks.map (fun x => (x, v x))) t ds =
        some (tasks.map (fun x => (x, if x = t then v x + ds.length else v x))) := by
  induction ds with
  | nil =>
    intro v _
    simp only [addEntry]
    refine congrArg some ?_
    apply List.map_congr_left
    intro x _
    by_cases hx : x = t <;> simp [hx]
  | cons d ds ih =>
    intro v ht
    have hk : hasKey (tasks.map (fun x => (x, v x))) t = true :=
      (hasKey_map_iff tasks v t).mpr ht
    simp only [addEntry, hk, if_true, incr_map]
    rw [ih (fun x => if x = t then v x + 1 else v x) ht]
    refine congrArg some ?_
    apply List.map_congr_left
    intro x _
    refine congrArg (Prod.mk x) ?_
    by_cases hx : x = t
    · simp only [hx, if_true, List.length_cons]
      push_cast
      ring
    · simp [hx]

theorem addEntry_none (tasks : List String) (v : String → Int) (t : String) (ds : List String)
    (ht : t ∉ tasks) (hds : ds ≠ []) :
    addEntry (tasks.map (fun x => (x, v x))) t ds = none := by
  cases ds with
  | nil => exact absurd rfl hds
  | cons d ds =>
    have hk : ¬ hasKey (tasks.map (fun x => (x, v x))) t = true := by
      rw [hasKey_map_iff]
      exact ht
    simp only [addEntry, if_neg hk]

theorem buildAux_map (tasks : List String) (ds : Deps) :
    ∀ (v : String → Int), (∀ p ∈ ds, p.2 ≠ [] → p.1 ∈ tasks) →
      buildAux ds (tasks.map (fun x => (x, v x))) =
        some (tasks.map (fun x => (x, v x + ((depsOf ds x).length : Int)))) := by
  induction ds with
  | nil =>
    intro v _
    simp only [buildAux]
    refine congrArg some ?_
    apply List.map_congr_left
    intro x _
    simp [depsOf]
  | cons p rest ih =>
    intro v hkeys
    by_cases hp : p.2 = []
    · have he : addEntry (tasks.map (fun x => (x, v x))) p.1 p.2 =
          some (tasks.map (fun x => (x, v x))) := by rw [hp]; rfl
      simp only [buildAux, he]
      rw [ih v (fun q hq => hkeys q (List.mem_cons_of_mem p hq))]
      refine congrArg some ?_
      apply List.map_congr_left
      intro x _
      refine congrArg (Prod.mk x) ?_
      rw [depsOf_cons, hp]
      by_cases hx : p.1 = x <;> simp [hx]
    · have hp1 : p.1 ∈ tasks := hkeys p (List.mem_cons_self p rest) hp
      have he := addEntry_map tasks p.1 p.2 v hp1
      simp only [buildAux, he]
      rw [ih (fun x => if x = p.1 then v x + p.2.length else v x)
        (fun q hq => hkeys q (List.mem_cons_of_mem p hq))]
      refine congrArg some ?_
      apply List.map_congr_left
      intro x _
      refine congrArg (Prod.mk x) ?_
      rw [depsOf_cons, List.length_append]
      by_cases hx : x = p.1
      · rw [if_pos hx, if_pos hx.symm]
        push_cast
        ring
      · rw [if_neg hx, if_neg (fun h => hx h.symm)]
        simp

theorem buildAux_none (tasks : List String) (ds : Deps) :
    ∀ (v : String → Int), (∃ p ∈ ds, p.2 ≠ [] ∧ p.1 ∉ tasks) →
      buildAux ds (tasks.map (fun x => (x, v x))) = none := by
  induction ds with
  | nil =>
    intro v h
    obtain ⟨p, hp, _⟩ := h
    cases hp
  | cons p rest ih =>
    intro v h
    by_cases hph : p.2 ≠ [] ∧ p.1 ∉ tasks
    · have he := addEntry_none tasks v p.1 p.2 hph.2 hph.1
      simp only [buildAux, he]
    · obtain ⟨q, hq, hqn, hqt⟩ := h
      have hqrest : q ∈ rest := by
        rcases List.mem_cons.mp hq with h1 | h1
        · subst h1
          exact absurd ⟨hqn, hqt⟩ hph
        · exact h1
      by_cases hpe : p.2 = []
      · have he : addEntry (tasks.map (fun x => (x, v x))) p.1 p.2 =
            some (tasks.map (fun x => (x, v x))) := by rw [hpe]; rfl
        simp only [buildAux, he]
        exact ih v ⟨q, hqrest, hqn, hqt⟩
      · have hp1 : p.1 ∈ tasks := by
          by_contra hc
          exact hph ⟨hpe, hc⟩
        have he := addEntry_map tasks p.1 p.2 v hp1
        simp only [buildAux, he]
        exact ih _ ⟨q, hqrest, hqn, hqt⟩

theorem buildInDegree_eq (tasks : List String) (deps : Deps)
    (hkeys : ∀ p ∈ deps, p.2 ≠ [] → p.1 ∈ tasks) :
    buildInDegree tasks deps =
      some (tasks.map (fun t => (t, ((depsOf deps t).length : Int)))) := by
  unfold buildInDegree
  have h := buildAux_map tasks deps (fun _ => (0 : Int)) hkeys
  rw [h]
  refine congrArg some ?_
  apply List.map_congr_left
  intro x _
  simp

theorem buildInDegree_none_of_bad_key (tasks : List String) (deps : Deps)
    (h : ∃ p ∈ deps, p.2 ≠ [] ∧ p.1 ∉ tasks) :
    buildInDegree tasks deps = none := by
  unfold buildInDegree
  exact buildAux_none tasks deps (fun _ => (0 : Int)) h

theorem good_init (tasks : List String) (deps : Deps) (hT : tasks.Nodup) :
    Good tasks deps
      (tasks.filter (fun t =>
        getDeg (tasks.map (fun t => (t, ((depsOf deps t).length : Int)))) t = 0))
      (tasks.map (fun t => (t, ((depsOf deps t).length : Int))))
      [] := by
  have hmeq : (tasks.map (fun t => (t, ((depsOf deps t).length : Int)))) =
      tasks.map (fun t => (t, (pending deps [] t : Int))) := by
    apply List.map_congr_left
    intro x _
    rw [pending_nil]
  refine ⟨hmeq, List.nodup_nil, List.Nodup.filter _ hT, ?_, ?_, ?_⟩
  · intro t ht
    cases ht
  · intro t
    rw [List.mem_filter]
    constructor
    · rintro ⟨htT, hcond⟩
      refine ⟨htT, List.not_mem_nil t, ?_⟩
      rw [decide_eq_true_eq, getDeg_map tasks _ t htT] at hcond
      rw [pending_nil]
      exact_mod_cast hcond
    · rintro ⟨htT, _, hpend⟩
      refine ⟨htT, ?_⟩
      rw [decide_eq_true_eq, getDeg_map tasks _ t htT]
      rw [pending_nil] at hpend
      exact_mod_cast hpend
  · intro t ht d _
    cases ht

theorem kahnLoop_cons_eq (g : String → List String) (current : String) (rest : List String)
    (m m' : List (String × Int)) (order adm : List String)
    (h : processNeighbors (g current) m = some (m', adm)) :
    kahnLoop g (current :: rest) m order = kahnLoop g (rest ++ adm) m' (order ++ [current]) :=
  kahnLoop_cons_some g current rest m order (m', adm) h

/-- C1: on well-formed input (a duplicate-free task set, dependency keys
that are declared tasks, prerequisites that are declared tasks) whose
dependency relation is acyclic — witnessed by a rank function that
strictly increases along every declared edge, which for a finite graph
is equivalent to acyclicity — `topological_sort` succeeds with an order
covering every declared task exactly once, and every declared
prerequisite occupies a strictly earlier position than its dependent
task. -/
theorem topological_sort_complete_for_acyclic (tasks : List String) (deps : Deps)
    (rank : String → Nat)
    (hT : tasks.Nodup) (hN : (deps.map Prod.fst).Nodup)
    (hkeys : ∀ p ∈ deps, p.1 ∈ tasks)
    (hprereq : ∀ p ∈ deps, ∀ d ∈ p.2, d ∈ tasks)
    (hrank : ∀ p ∈ deps, ∀ d ∈ p.2, rank d < rank p.1) :
    ∃ order, topological_sort tasks deps = some order ∧
      order.length = tasks.length ∧
      ∀ p ∈ deps, ∀ d ∈ p.2, order.indexOf d < order.indexOf p.1 := by
  have hkeys' : ∀ p ∈ deps, p.2 ≠ [] → p.1 ∈ tasks := fun p hp _ => hkeys p hp
  have hb := buildInDegree_eq tasks deps hkeys'
  obtain ⟨res, hloop, hnodup, hsub, hsort, hblocked⟩ :=
    kahnLoop_good tasks deps hN hkeys' _ _ _ _ rfl (good_init tasks deps hT)
  have hcomplete : ∀ t ∈ tasks, t ∈ res := by
    have hstep : ∀ (k : Nat), ∀ t ∈ tasks, rank t < k → t ∈ res := by
      intro k
      induction k with
      | zero =>
        intro t _ h
        omega
      | succ k ihk =>
        intro t htT hrk
        by_contra hnot
        have hp := hblocked t htT hnot
        have hex : ∃ d ∈ depsOf deps t, d ∉ res := by
          by_contra hall
          push_neg at hall
          apply hp
          unfold pending
          rw [List.countP_eq_zero]
          intro d hd
          simp [hall d hd]
        obtain ⟨d, hd, hdnot⟩ := hex
        obtain ⟨p, hpmem, hpt, hdp⟩ := (mem_depsOf deps t d).mp hd
        have hdT : d ∈ tasks := hprereq p hpmem d hdp
        have hdrk : rank d < rank t := by
          have := hrank p hpmem d hdp
          rw [hpt] at this
          exact this
        exact hdnot (ihk d hdT (by omega))
    intro t ht
    exact hstep (rank t + 1) t ht (by omega)
  have hlen : res.length = tasks.length := by
    have h1 : List.Subperm res tasks := List.subperm_of_subset hnodup (by intro a ha; exact hsub a ha)
    have h2 : List.Subperm tasks res :=
      List.subperm_of_subset hT (by intro a ha; exact hcomplete a ha)
    exact Nat.le_antisymm h1.length_le h2.length_le
  refine ⟨res, ?_, hlen, ?_⟩
  · unfold topological_sort
    simp only [hb, hloop, hlen]
    simp
  · intro p hp d hd
    have hpres : p.1 ∈ res := hcomplete p.1 (hkeys p hp)
    have hdmem : d ∈ depsOf deps p.1 := (mem_depsOf deps p.1 d).mpr ⟨p, hp, rfl, hd⟩
    exact (hsort p.1 hpres d hdmem).2

/-- Witness for C1: tasks `{A, B}` with `B` depending on `A` produce an
order of length two in which `A` precedes `B`. -/
theorem topological_sort_complete_for_acyclic_witness :
    ∃ order, topological_sort ["A", "B"] [("B", ["A"])] = some order ∧
      order.length = (["A", "B"] : List String).length ∧
      ∀ p ∈ ([("B", ["A"])] : Deps), ∀ d ∈ p.2,
        order.indexOf d < order.indexOf p.1 :=
  topological_sort_complete_for_acyclic ["A", "B"] [("B", ["A"])]
    (fun s => if s = "B" then 1 else 0) (by decide) (by decide) (by decide)
    (by decide) (by decide)

/-- C2: on well-formed input (duplicate-free task set, dependency keys
that are declared tasks) whose declaration either lists a prerequisite
that is not a declared task, or contains a dependency cycle among
declared tasks, `topological_sort` completes without raising — graph
construction succeeds because every incremented key is declared — and
returns the structural-error signal `[]` rather than any partial
order. -/
theorem topological_sort_error_on_cycle_or_dangling (tasks : List String) (deps : Deps)
    (hT : tasks.Nodup) (hN : (deps.map Prod.fst).Nodup)
    (hkeys : ∀ p ∈ deps, p.1 ∈ tasks)
    (hbad : (∃ p ∈ deps, ∃ d ∈ p.2, d ∉ tasks) ∨
      ∃ t ∈ tasks, Relation.TransGen (DependsOn deps) t t) :
    topological_sort tasks deps = some [] := by
  have hkeys' : ∀ p ∈ deps, p.2 ≠ [] → p.1 ∈ tasks := fun p hp _ => hkeys p hp
  have hb := buildInDegree_eq tasks deps hkeys'
  obtain ⟨res, hloop, hnodup, hsub, hsort, hblocked⟩ :=
    kahnLoop_good tasks deps hN hkeys' _ _ _ _ rfl (good_init tasks deps hT)
  have hlen : res.length ≠ tasks.length := by
    intro hlen
    have hperm : List.Perm res tasks := by
      have h1 : List.Subperm res tasks :=
        List.subperm_of_subset hnodup (by intro a ha; exact hsub a ha)
      exact h1.perm_of_length_le (le_of_eq hlen.symm)
    have hall : ∀ t ∈ tasks, t ∈ res := fun t ht => hperm.mem_iff.mpr ht
    rcases hbad with ⟨p, hp, d, hd, hdnot⟩ | ⟨t, htT, hcyc⟩
    · have hpres : p.1 ∈ res := hall p.1 (hkeys p hp)
      have hdmem : d ∈ depsOf deps p.1 := (mem_depsOf deps p.1 d).mpr ⟨p, hp, rfl, hd⟩
      exact hdnot (hsub d (hsort p.1 hpres d hdmem).1)
    · have hchain : ∀ a b, Relation.TransGen (DependsOn deps) a b → b ∈ res →
          a ∈ res ∧ res.indexOf a < res.indexOf b := by
        intro a b h
        induction h with
        | single hr =>
          intro hb2
          exact hsort _ hb2 _ hr
        | tail h1 hr ihh =>
          intro hc
          obtain ⟨hbmem, hlt⟩ := hsort _ hc _ hr
          obtain ⟨hamem, hlt2⟩ := ihh hbmem
          exact ⟨hamem, hlt2.trans hlt⟩
      have := (hchain t t hcyc (hall t htT)).2
      omega
  unfold topological_sort
  simp only [hb, hloop]
  rw [if_pos hlen]

/-- Witness for C2 at the spec's example cycle `A→B, B→A`: the Sequencer
returns the empty order. -/
theorem topological_sort_error_on_cycle_or_dangling_witness :
    topological_sort ["A", "B"] [("A", ["B"]), ("B", ["A"])] = some [] := by
  apply topological_sort_error_on_cycle_or_dangling ["A", "B"] [("A", ["B"]), ("B", ["A"])]
    (by decide) (by decide) (by decide)
  refine Or.inr ⟨"A", by decide, ?_⟩
  have h1 : DependsOn [("A", ["B"]), ("B", ["A"])] ("A") ("B") := by
    unfold DependsOn
    decide
  have h2 : DependsOn [("A", ["B"]), ("B", ["A"])] ("B") ("A") := by
    unfold DependsOn
    decide
  exact Relation.TransGen.tail (Relation.TransGen.single h1) h2

theorem admittedList_mem_char (deps : Deps) (order : List String) (current : String)
    (hN : (deps.map Prod.fst).Nodup) (hcO : current ∉ order) :
    admittedList deps current (fun t => (pending deps order t : Int)) =
      (deps.filter (fun p => decide (current ∈ p.2) &&
        decide (∀ d ∈ p.2, d ∉ order → d = current))).map Prod.fst := by
  unfold admittedList
  refine congrArg (List.map Prod.fst) ?_
  apply List.filter_congr
  intro p hp
  have hdeq : depsOf deps p.1 = p.2 := depsOf_eq_of_nodup deps p hN hp
  refine congrArg (fun b => decide (current ∈ p.2) && b) ?_
  rw [decide_eq_decide]
  constructor
  · intro h
    have h2 : (pending deps order p.1 : Int) = (p.2.count current : Int) := h
    have hpend : pending deps order p.1 = p.2.count current := by exact_mod_cast h2
    unfold pending at hpend
    rw [hdeq] at hpend
    exact (countP_eq_count_iff p.2 order current hcO).mp hpend
  · intro h
    have hpend := (countP_eq_count_iff p.2 order current hcO).mpr h
    show (pending deps order p.1 : Int) = _
    unfold pending
    rw [hdeq]
    exact_mod_cast hpend

theorem filter_map_fst_dedup (cond : String × List String → Bool)
    (hstable : ∀ p : String × List String, cond (p.1, p.2.dedup) = cond p) :
    ∀ deps : Deps,
      ((dedupDeps deps).filter cond).map Prod.fst = (deps.filter cond).map Prod.fst := by
  intro deps
  induction deps with
  | nil => rfl
  | cons p rest ih =>
    show (((p.1, p.2.dedup) :: dedupDeps rest).filter cond).map Prod.fst = _
    rw [List.filter_cons, List.filter_cons, hstable p]
    by_cases hc : cond p = true
    · rw [if_pos hc, if_pos hc, List.map_cons, List.map_cons, ih]
    · rw [if_neg hc, if_neg hc, ih]

theorem admittedList_dedup (deps : Deps) (order : List String) (current : String)
    (hN : (deps.map Prod.fst).Nodup) (hcO : current ∉ order) :
    admittedList (dedupDeps deps) current
        (fun t => (pending (dedupDeps deps) order t : Int)) =
      admittedList deps current (fun t => (pending deps order t : Int)) := by
  have hmapfst : (dedupDeps deps).map Prod.fst = deps.map Prod.fst := by
    unfold dedupDeps
    rw [List.map_map]
    rfl
  have hN₂ : ((dedupDeps deps).map Prod.fst).Nodup := by
    rw [hmapfst]
    exact hN
  rw [admittedList_mem_char deps order current hN hcO,
    admittedList_mem_char (dedupDeps deps) order current hN₂ hcO]
  apply filter_map_fst_dedup
  intro p
  refine congrArg₂ (fun a b => a && b) ?_ ?_
  · rw [decide_eq_decide]
    exact List.mem_dedup
  · rw [decide_eq_decide]
    constructor
    · intro h d hd hdO
      exact h d (List.mem_dedup.mpr hd) hdO
    · intro h d hd hdO
      exact h d (List.mem_dedup.mp hd) hdO

theorem kahnLoop_dedup_bisim (tasks : List String) (deps : Deps)
    (hN : (deps.map Prod.fst).Nodup)
    (hkeys : ∀ p ∈ deps, p.2 ≠ [] → p.1 ∈ tasks) :
    ∀ (n : Nat) (q : List String) (m m₂ : List (String × Int)) (order : List String),
      q.length + posCount m = n →
      Good tasks deps q m order →
      Good tasks (dedupDeps deps) q m₂ order →
      kahnLoop (graph deps) q m order =
        kahnLoop (graph (dedupDeps deps)) q m₂ order := by
  have hmapfst : (dedupDeps deps).map Prod.fst = deps.map Prod.fst := by
    unfold dedupDeps
    rw [List.map_map]
    rfl
  have hN₂ : ((dedupDeps deps).map Prod.fst).Nodup := by
    rw [hmapfst]
    exact hN
  have hkeys₂ : ∀ p ∈ dedupDeps deps, p.2 ≠ [] → p.1 ∈ tasks := by
    intro p hp hpne
    obtain ⟨q', hq', hq'eq⟩ := List.mem_map.mp hp
    have h1 : q'.1 = p.1 := by rw [← hq'eq]
    have h2 : q'.2.dedup = p.2 := by rw [← hq'eq]
    rw [← h1]
    apply hkeys q' hq'
    intro he
    apply hpne
    rw [← h2, he]
    rfl
  intro n
  induction n using Nat.strong_induction_on with
  | _ n ih =>
    intro q m m₂ order hn hg hg₂
    cases q with
    | nil => rw [kahnLoop_nil, kahnLoop_nil]
    | cons current rest =>
      obtain ⟨hPN, hg'⟩ := good_step tasks deps hN hkeys current rest m order hg
      obtain ⟨hPN₂, hg₂'⟩ :=
        good_step tasks (dedupDeps deps) hN₂ hkeys₂ current rest m₂ order hg₂
      rw [kahnLoop_cons_eq _ _ _ _ _ _ _ hPN, kahnLoop_cons_eq _ _ _ _ _ _ _ hPN₂]
      have hcO : current ∉ order :=
        ((hg.qIff current).mp (List.mem_cons_self current rest)).2.1
      have hadm := admittedList_dedup deps order current hN hcO
      rw [hadm] at hg₂' ⊢
      have hmeas := processNeighbors_measure _ _ _ _ hPN
      refine ih _ ?_ _ _ _ _ rfl hg' hg₂'
      rw [List.length_append]
      rw [List.length_cons] at hn
      omega

/-- C8: duplicate dependency edges are idempotent.  Collapsing every
prerequisite list to single occurrences — i.e. listing every duplicated
prerequisite exactly once — leaves the result of `topological_sort`
unchanged: the same order on success, the same `[]` signal on a
structural error, and the same `KeyError` crash on an undeclared
dependency key. -/
theorem topological_sort_duplicate_edges_idempotent (tasks : List String) (deps : Deps)
    (hT : tasks.Nodup) (hN : (deps.map Prod.fst).Nodup) :
    topological_sort tasks deps = topological_sort tasks (dedupDeps deps) := by
  have hmapfst : (dedupDeps deps).map Prod.fst = deps.map Prod.fst := by
    unfold dedupDeps
    rw [List.map_map]
    rfl
  by_cases hkeys : ∀ p ∈ deps, p.2 ≠ [] → p.1 ∈ tasks
  · have hkeys₂ : ∀ p ∈ dedupDeps deps, p.2 ≠ [] → p.1 ∈ tasks := by
      intro p hp hpne
      obtain ⟨q', hq', hq'eq⟩ := List.mem_map.mp hp
      have h1 : q'.1 = p.1 := by rw [← hq'eq]
      have h2 : q'.2.dedup = p.2 := by rw [← hq'eq]
      rw [← h1]
      apply hkeys q' hq'
      intro he
      apply hpne
      rw [← h2, he]
      rfl
    have hb₁ := buildInDegree_eq tasks deps hkeys
    have hb₂ := buildInDegree_eq tasks (dedupDeps deps) hkeys₂
    have hq : (tasks.filter (fun t =>
          getDeg (tasks.map (fun t => (t, ((depsOf (dedupDeps deps) t).length : Int)))) t
            = 0)) =
        tasks.filter (fun t =>
          getDeg (tasks.map (fun t => (t, ((depsOf deps t).length : Int)))) t = 0) := by
      apply List.filter_congr
      intro t ht
      rw [getDeg_map tasks _ t ht, getDeg_map tasks _ t ht, decide_eq_decide]
      constructor
      · intro h
        have h2 : depsOf (dedupDeps deps) t = [] := by
          rw [← List.length_eq_zero]
          exact_mod_cast h
        have h3 := (depsOf_dedupDeps_nil_iff deps t).mp h2
        rw [h3]
        simp
      · intro h
        have h2 : depsOf deps t = [] := by
          rw [← List.length_eq_zero]
          exact_mod_cast h
        have h3 := (depsOf_dedupDeps_nil_iff deps t).mpr h2
        rw [h3]
        simp
    have hg₁ := good_init tasks deps hT
    have hg₂ := good_init tasks (dedupDeps deps) hT
    rw [hq] at hg₂
    have hbisim := kahnLoop_dedup_bisim tasks deps hN hkeys _ _ _ _ _ rfl hg₁ hg₂
    unfold topological_sort
    simp only [hb₁, hb₂]
    rw [hq, hbisim]
  · push_neg at hkeys
    obtain ⟨p, hp, hpne, hpnot⟩ := hkeys
    have h₁ := buildInDegree_none_of_bad_key tasks deps ⟨p, hp, hpne, hpnot⟩
    have h₂ := buildInDegree_none_of_bad_key tasks (dedupDeps deps)
      ⟨(p.1, p.2.dedup), List.mem_map_of_mem _ hp, by
        intro he
        exact hpne ((dedup_eq_nil_iff p.2).mp he), hpnot⟩
    unfold topological_sort
    simp only [h₁, h₂]

/-- Witness for C8: listing the prerequisite `A` twice for `B` yields
the same result as listing it once. -/
theorem topological_sort_duplicate_edges_idempotent_witness :
    topological_sort ["A", "B"] [("B", ["A", "A"])] =
      topological_sort ["A", "B"] (dedupDeps [("B", ["A", "A"])]) :=
  topological_sort_duplicate_edges_idempotent ["A", "B"] [("B", ["A", "A"])]
    (by decide) (by decide)

/-- C3: the Sequence Executor is fail-fast.  If the order splits as
`pre ++ t :: post` with every task of `pre` succeeding and `t` failing,
then exactly the tasks of `pre` and then `t` are invoked, nothing of
`post` runs, and the run result is `error t`, i.e. the boolean returned
to `main` is `False` with `t` logged as the failing task. -/
theorem execute_task_sequence_fail_fast (outcome : String → Bool)
    (pre : List String) (t : String) (post : List String)
    (hpre : ∀ x ∈ pre, outcome x = true) (ht : outcome t = false) :
    executeTrace outcome (pre ++ t :: post) = (pre ++ [t], RunResult.error t) ∧
      execute_task_sequence outcome (pre ++ t :: post) = false := by
  induction pre with
  | nil => simp [executeTrace, execute_task_sequence, ht]
  | cons a pre ih =>
    have ha : outcome a = true := hpre a (by simp)
    obtain ⟨ih1, ih2⟩ := ih (fun x hx => hpre x (by simp [hx]))
    constructor
    · show executeTrace outcome (a :: (pre ++ t :: post)) = _
      simp only [executeTrace, ha, if_true, ih1, List.cons_append]
    · show execute_task_sequence outcome (a :: (pre ++ t :: post)) = false
      simp only [execute_task_sequence, ha, if_true, ih2]

/-- Witness for C3 at the spec's example: order `[A, B, C]` with `A`
succeeding and `B` failing invokes `A` then `B`, never `C`, and reports
`B` as the failing task. -/
theorem execute_task_sequence_fail_fast_witness :
    executeTrace (fun s => s = "A") ["A", "B", "C"] = (["A", "B"], RunResult.error ("B")) ∧
      execute_task_sequence (fun s => s = "A") ["A", "B", "C"] = false :=
  execute_task_sequence_fail_fast (fun s => s = "A") ["A"] ("B") ["C"]
    (by decide) (by decide)

/-- C4: when every task in the order succeeds, the Sequence Executor
invokes exactly the tasks of the order, in the given order, and returns
`True` (run result `Done`); nothing is retried or skipped. -/
theorem execute_task_sequence_all_succeed (outcome : String → Bool) (order : List String)
    (h : ∀ x ∈ order, outcome x = true) :
    executeTrace outcome order = (order, RunResult.done) ∧
      execute_task_sequence outcome order = true := by
  induction order with
  | nil => simp [executeTrace, execute_task_sequence]
  | cons a rest ih =>
    have ha : outcome a = true := h a (by simp)
    obtain ⟨ih1, ih2⟩ := ih (fun x hx => h x (by simp [hx]))
    constructor
    · simp only [executeTrace, ha, if_true, ih1]
    · simp only [execute_task_sequence, ha, if_true, ih2]

/-- Witness for C4 at order `[A, B, C]` with every task succeeding. -/
theorem execute_task_sequence_all_succeed_witness :
    executeTrace (fun _ => true) ["A", "B", "C"] = (["A", "B", "C"], RunResult.done) ∧
      execute_task_sequence (fun _ => true) ["A", "B", "C"] = true :=
  execute_task_sequence_all_succeed (fun _ => true) ["A", "B", "C"] (by decide)

/-- C5: the Task Runner never propagates a fault: it is a total boolean
function of the plugin environment, returning `True` exactly when the
task file is found, the module loads, it defines `run`, and `run()`
returns without raising; each of the fault categories (missing or
unloadable unit, missing entry point, exception during execution)
therefore yields `False`, a value rather than an unhandled exception. -/
theorem execute_task_outcome_total (fs : String → LoadResult) (task_name : String) :
    execute_task fs task_name = true ↔ fs task_name = LoadResult.loaded ⟨true, false⟩ := by
  unfold execute_task
  cases h : fs task_name with
  | fileMissing => simp
  | loadError => simp
  | loaded tm =>
    cases tm with
    | mk hasRun runRaises => cases hasRun <;> cases runRaises <;> simp

/-- C6: single-task mode coincides with full-graph mode on a one-element
order: the boolean outcome of `execute_task_sequence` on `[t]` is
exactly the outcome of `execute_task` on `t`, and the completion
signal `main` derives from it is exactly the single-task signal. -/
theorem single_task_mode_equiv_sequence (fs : String → LoadResult) (t : String) :
    execute_task_sequence (execute_task fs) [t] = execute_task fs t ∧
      signalOf (execute_task_sequence (execute_task fs) [t]) = mainSingleMode fs t := by
  have h : execute_task_sequence (execute_task fs) [t] = execute_task fs t := by
    cases h : execute_task fs t <;> simp [execute_task_sequence, h]
  exact ⟨h, by rw [mainSingleMode, h]⟩

/-- C7: the Sequencer is deterministic: two runs of `topological_sort`
on identical input (the same task iteration order and the same
dependency declaration) return the identical result.  The embedding
fixes the set/dict iteration orders as part of the input, and the
algorithm itself makes no other choice. -/
theorem topological_sort_deterministic (tasks₁ tasks₂ : List String) (deps₁ deps₂ : Deps)
    (htasks : tasks₁ = tasks₂) (hdeps : deps₁ = deps₂) :
    topological_sort tasks₁ deps₁ = topological_sort tasks₂ deps₂ := by
  rw [htasks, hdeps]

/-- Witness for C7 on a concrete input. -/
theorem topological_sort_deterministic_witness :
    topological_sort ["A", "B"] [("B", ["A"])] = topological_sort ["A", "B"] [("B", ["A"])] :=
  topological_sort_deterministic ["A", "B"] ["A", "B"] [("B", ["A"])] [("B", ["A"])] rfl rfl

/-- C9: `topological_sort` is not total over its advertised input type:
when the dependency mapping contains the key `B` with a nonempty
prerequisite list while `B` is not a declared task, the increment
`in_degree[B] += 1` raises an uncaught `KeyError` (modelled by `none`),
instead of returning the structural-error signal `[]`. -/
theorem topological_sort_keyerror_on_undeclared_key :
    buildInDegree ["A"] [("B", ["A"])] = none ∧
      topological_sort ["A"] [("B", ["A"])] = none := by
  constructor <;> rfl

theorem topological_sort_empty_queue_eval (tasks : List String) (deps : Deps)
    (m : List (String × Int)) (hb : buildInDegree tasks deps = some m)
    (hq : tasks.filter (fun t => getDeg m t = 0) = []) (hne : tasks ≠ []) :
    topological_sort tasks deps = some [] := by
  have hlen : tasks.length ≠ 0 := fun h => hne (List.length_eq_zero.mp h)
  simp only [topological_sort, hb, hq, kahnLoop_nil, List.length_nil]
  simp [Ne.symm hlen]

/-- C10: the structural-error signal is the same value as the valid
order of an empty task set.  `topological_sort` returns `[]` for the
empty task set, exactly the value it returns for a cycle, and `main`
(which tests `if not task_order:`) therefore reports `ERROR` for the
empty task set and invokes no task. -/
theorem empty_task_set_indistinguishable_from_error :
    topological_sort [] [] = some [] ∧
      topological_sort ["A", "B"] [("A", ["B"]), ("B", ["A"])] = some [] ∧
      ∀ fs, mainAllMode fs [] [] = some ("ERROR", []) := by
  have h1 : topological_sort [] [] = some [] := by
    simp only [topological_sort, buildInDegree, List.map_nil, buildAux, List.filter_nil,
      kahnLoop_nil, List.length_nil]
    simp
  refine ⟨h1, ?_, ?_⟩
  · exact topological_sort_empty_queue_eval _ _ _ (by rfl) (by rfl) (by simp)
  · intro fs
    simp [mainAllMode, h1]

end Slave
